import Mathlib

/-!
Verification development for the payloadcms-plugin-cloudflare-stream repository.

The definitions below are shallow embeddings of the plugin's source code:

* `src/src/components/CloudflareClientUploadHandler.tsx` — upload-mode selection
  (`MAX_FILE_SIZE`, `useTus`).
* `src/src/generateSignedURL.ts` — the signed-URL / TUS issuance handler
  (`extractStreamIdFromTusUrl`, `sanitizeAllowedOrigin`, `normalizeAllowedOrigins`,
  `setAllowedOriginsFails`, `handleTusIssuance`).
* `src/unnamed/part_001` / `part_002` — remote deletion and status query
  (`handleStreamDelete`, `mapStreamState`, `fetchVideoStatusResult`).
* `src/src/index.ts` (`createAfterChangeHook`) — the status reconciler
  (`checkStatus`, `reconcileRun`).
* `src/unnamed/part_004` — the generic poll utility (`pollAux`, `pollRun`).

JavaScript string builtins used by the source (`trim`, `toLowerCase`, `split`,
the WHATWG `URL` host accessor) are modelled explicitly over `List Char`.
-/

/-! ## Models of JavaScript string builtins -/

/-- Model of ASCII lower-casing of one character, as performed by the JS
`String.prototype.toLowerCase` builtin on the host strings handled here. -/
def lowerChar (c : Char) : Char :=
  if 65 ≤ c.toNat ∧ c.toNat ≤ 90 then Char.ofNat (c.toNat + 32) else c

/-- Model of the JS `String.prototype.toLowerCase` builtin. -/
def lowerStr (s : String) : String :=
  ⟨s.data.map lowerChar⟩

/-- Whitespace test used by the model of the JS `String.prototype.trim` builtin. -/
def isJsWhitespace (c : Char) : Bool :=
  c == ' ' || c == '\t' || c == '\n' || c == '\r'

/-- Model of the JS `String.prototype.trim` builtin over character lists:
leading and trailing whitespace is removed. -/
def trimChars (l : List Char) : List Char :=
  ((l.dropWhile isJsWhitespace).reverse.dropWhile isJsWhitespace).reverse

/-! ## Resumable-resource id extraction (src/src/generateSignedURL.ts 136-142)

`extractStreamIdFromTusUrl` matches the regular expression
`/\/tus\/([a-f0-9]{32})(?:\?|$)/` against the `Location` header and returns the
captured group, or the empty string when there is no match. -/

/-- Character class `[a-f0-9]` of the stream-id pattern. -/
def isLowerHex (c : Char) : Bool :=
  (97 ≤ c.toNat && c.toNat ≤ 102) || (48 ≤ c.toNat && c.toNat ≤ 57)

/-- Split a list after exactly `n` elements, failing when it is shorter. -/
def splitAtExact : Nat → List Char → Option (List Char × List Char)
  | 0, l => some ([], l)
  | _ + 1, [] => none
  | n + 1, c :: l =>
    match splitAtExact n l with
    | none => none
    | some (a, b) => some (c :: a, b)

/-- Remove the literal prefix `p` from `l`, failing when `l` does not start with `p`. -/
def stripPrefixChars : List Char → List Char → Option (List Char)
  | [], l => some l
  | _ :: _, [] => none
  | p :: ps, c :: cs => if p = c then stripPrefixChars ps cs else none

/-- Attempt of the pattern `/tus/([a-f0-9]{32})(?:\?|$)` at one start position:
the literal `/tus/`, then exactly 32 lowercase-hex characters, then either the
end of the string or a `?`. Returns the captured 32 characters. -/
def matchTusAt (l : List Char) : Option (List Char) :=
  match stripPrefixChars "/tus/".data l with
  | none => none
  | some rest =>
    match splitAtExact 32 rest with
    | none => none
    | some (sid, suffix) =>
      if sid.all isLowerHex && (suffix.isEmpty || suffix.head? == some '?') then
        some sid
      else none

/-- Leftmost-match scan of the stream-id pattern, as the JS regex engine does. -/
def scanTus : List Char → Option (List Char)
  | [] => none
  | c :: cs =>
    match matchTusAt (c :: cs) with
    | some sid => some sid
    | none => scanTus cs

/-- Embedding of `extractStreamIdFromTusUrl` (src/src/generateSignedURL.ts 138-142):
`tusUrl.match(/\/tus\/([a-f0-9]{32})(?:\?|$)/)`, returning the captured group on
a match and `''` otherwise. -/
def extractStreamIdFromTusUrl (tusUrl : String) : String :=
  match scanTus tusUrl.data with
  | some sid => ⟨sid⟩
  | none => ""

/-! ## Origin sanitization (src/src/generateSignedURL.ts 144-176) -/

/-- Case-insensitive literal-prefix removal, used for the `/^https?:\/\//i` test. -/
def stripPrefixCI : List Char → List Char → Option (List Char)
  | [], l => some l
  | _ :: _, [] => none
  | p :: ps, c :: cs => if lowerChar c = p then stripPrefixCI ps cs else none

/-- Remainder of `l` after a case-insensitive `http://` or `https://` scheme
prefix; `none` when `/^https?:\/\//i` does not match. -/
def httpSchemeRest (l : List Char) : Option (List Char) :=
  match stripPrefixCI "http".data l with
  | none => none
  | some rest =>
    let rest2 := match rest with
      | c :: cs => if lowerChar c = 's' then cs else rest
      | [] => rest
    stripPrefixChars "://".data rest2

/-- Authority component: everything before the first `/`, `?` or `#`. -/
def urlAuthority (rest : List Char) : List Char :=
  rest.takeWhile (fun c => !(c == '/' || c == '?' || c == '#'))

/-- Suffix of `l` strictly after its last `@` (all of `l` when there is none),
dropping the userinfo part of a URL authority. -/
def afterLastAt (l : List Char) : List Char :=
  (l.reverse.takeWhile (fun c => !(c == '@'))).reverse

/-- Model of `new URL(raw).host` for http(s) URLs: the authority after the
scheme, without userinfo; `none` models the `URL` constructor throwing on an
empty host. -/
def urlHostChars (l : List Char) : Option (List Char) :=
  match httpSchemeRest l with
  | none => none
  | some rest =>
    let host := afterLastAt (urlAuthority rest)
    if host.isEmpty then none else some host

/-- Embedding of `sanitizeAllowedOrigin` (src/src/generateSignedURL.ts 160-176):
trim; empty gives `null`; an `https?://` value is parsed as a URL and its host is
trimmed and lower-cased; otherwise everything before the first `/` is trimmed and
lower-cased; empty results give `null`. -/
def sanitizeAllowedOrigin (value : String) : Option String :=
  let raw := trimChars value.data
  if raw.isEmpty then none
  else if (httpSchemeRest raw).isSome then
    match urlHostChars raw with
    | none => none
    | some h =>
      let t := trimChars h
      if t.isEmpty then none else some ⟨t.map lowerChar⟩
  else
    let withoutPath := trimChars (raw.takeWhile (fun c => !(c == '/')))
    if withoutPath.isEmpty then none else some ⟨withoutPath.map lowerChar⟩

/-- One step of the accumulating loop in `normalizeAllowedOrigins`
(src/src/generateSignedURL.ts 150-155): skip values that sanitize to nothing or
were already seen, otherwise append. -/
def normStep (acc : List String) (origin : String) : List String :=
  match sanitizeAllowedOrigin origin with
  | none => acc
  | some n => if acc.contains n then acc else acc ++ [n]

/-- Embedding of `normalizeAllowedOrigins` (src/src/generateSignedURL.ts 144-158).
`none` input models a non-array `videoOptions.allowedOrigins`; an empty
accumulated result yields `undefined`, never an empty list. -/
def normalizeAllowedOrigins (value : Option (List String)) : Option (List String) :=
  match value with
  | none => none
  | some origins =>
    let result := origins.foldl normStep []
    if result.length > 0 then some result else none

/-- Specification-side first-occurrence deduplication, used to compare the
accumulating loop of `normalizeAllowedOrigins` against the spec's description
"duplicates removed, order of first occurrence preserved". -/
def dedupKeepFirst : List String → List String
  | [] => []
  | x :: xs => x :: dedupKeepFirst (xs.filter (fun y => !(y == x)))
termination_by l => l.length
decreasing_by
  simp only [List.length_cons]
  exact Nat.lt_succ_of_le (xs.length_filter_le _)

/-! ## TUS issuance (src/src/generateSignedURL.ts 44-90, 178-213) -/

/-- Observable part of the response to the resumable-session-creation call
(`POST .../stream?direct_user=true`): HTTP `ok` flag and `Location` header. -/
structure TusCreateResponse where
  ok : Bool
  location : Option String
deriving DecidableEq

/-- Observable part of the response to the follow-up
`POST .../stream/{streamId}` call that sets `allowedOrigins`: HTTP `ok` flag and
the parsed `success` flag of the JSON envelope (`none` models an unparsable or
empty body). -/
structure SetOriginsResponse where
  ok : Bool
  payload : Option Bool
deriving DecidableEq

/-- Failure test of `setAllowedOriginsForStream`
(src/src/generateSignedURL.ts 207): `!response.ok || !payload?.success`. -/
def setAllowedOriginsFails (resp : SetOriginsResponse) : Bool :=
  !resp.ok || !(resp.payload.getD false)

/-- Error outcomes of the TUS branch of the issuance handler. -/
inductive TusIssueError
  | createFailed
  | missingLocation
  | streamIdParseFailed
  | setOriginsFailed
deriving DecidableEq

/-- Success value of the TUS branch: the returned endpoint and stream id, and
the origin list submitted by the follow-up call (`none` when that call was not
issued). -/
structure TusIssueSuccess where
  tusEndpoint : String
  streamId : String
  originsSubmitted : Option (List String)
deriving DecidableEq

/-- Embedding of the TUS branch of `getGenerateSignedURLHandler`
(src/src/generateSignedURL.ts 38-90): normalize the configured origins, require
an ok creation response and a `Location` header, extract the stream id (the
falsy `''` fails), then — only when a non-empty normalized origin list exists —
issue the follow-up `setAllowedOriginsForStream` call, whose failure fails the
whole operation. -/
def handleTusIssuance (rawAllowedOrigins : Option (List String))
    (createResp : TusCreateResponse) (setResp : SetOriginsResponse) :
    Except TusIssueError TusIssueSuccess :=
  let allowedOrigins := normalizeAllowedOrigins rawAllowedOrigins
  if !createResp.ok then .error .createFailed
  else
    match createResp.location with
    | none => .error .missingLocation
    | some tusUploadURL =>
      let streamId := extractStreamIdFromTusUrl tusUploadURL
      if streamId = "" then .error .streamIdParseFailed
      else
        match allowedOrigins with
        | some os =>
          if os.length > 0 then
            if setAllowedOriginsFails setResp then .error .setOriginsFailed
            else .ok ⟨tusUploadURL, streamId, some os⟩
          else .ok ⟨tusUploadURL, streamId, none⟩
        | none => .ok ⟨tusUploadURL, streamId, none⟩

/-! ## Upload-mode selection (src/src/components/CloudflareClientUploadHandler.tsx 8-26) -/

/-- The two upload strategies of the client upload handler. -/
inductive UploadMode
  | direct
  | resumable
deriving DecidableEq

/-- Embedding of `MAX_FILE_SIZE = 200 * 1024 * 1024`
(src/src/components/CloudflareClientUploadHandler.tsx 8). -/
def MAX_FILE_SIZE : Nat := 200 * 1024 * 1024

/-- Embedding of `const useTus = file.size > MAX_FILE_SIZE`
(src/src/components/CloudflareClientUploadHandler.tsx 25). -/
def useTus (fileSize : Nat) : Bool :=
  fileSize > MAX_FILE_SIZE

/-- Modelled from the spec: the spec's `decide(totalBytes, thresholdBytes) -> Mode`
function of §4.1, to be compared with the source's `useTus` decision. -/
def decideUploadMode (totalBytes thresholdBytes : Nat) : UploadMode :=
  if totalBytes > thresholdBytes then .resumable else .direct

/-! ## Remote status mapping and query (src/unnamed/part_001 129-144) -/

/-- The three-valued local video status (src/src/types.ts 7). -/
inductive VideoStatus
  | processing
  | ready
  | error
deriving DecidableEq

/-- Embedding of the remote-to-local state mapping used by `fetchVideoStatus`
(src/unnamed/part_001 132-137) and `handleUpload` (src/src/index.ts 265-270):
`'ready'` and `'error'` map to themselves, everything else to `'processing'`. -/
def mapStreamState (state : String) : VideoStatus :=
  if state = "ready" then .ready
  else if state = "error" then .error
  else .processing

/-- Fields of the remote `GET /stream/{uid}` result consumed by
`fetchVideoStatus`: `status.state`, `duration`, `thumbnail`, `size` (`none`
models an absent field). -/
structure StreamDetails where
  state : String
  duration : Option Nat
  thumbnail : Option String
  size : Option Nat
deriving DecidableEq

/-- Model of the JS `x || undefined` coercion on an optional number: `0` is
falsy and becomes `undefined`. -/
def jsOrUndefinedNat (v : Option Nat) : Option Nat :=
  match v with
  | none => none
  | some n => if n = 0 then none else some n

/-- Model of the JS `x || undefined` coercion on an optional string: `''` is
falsy and becomes `undefined`. -/
def jsOrUndefinedStr (v : Option String) : Option String :=
  match v with
  | none => none
  | some s => if s = "" then none else some s

/-- Return value of `checkVideoStatus` / `fetchVideoStatus`
(src/unnamed/part_001 96-145): the mapped status and the `|| undefined`-coerced
duration, thumbnail and size. -/
structure StatusResult where
  status : VideoStatus
  duration : Option Nat
  thumbnailUrl : Option String
  size : Option Nat
deriving DecidableEq

/-- Embedding of the result construction of `fetchVideoStatus`
(src/unnamed/part_001 132-144). -/
def fetchVideoStatusResult (d : StreamDetails) : StatusResult :=
  { status := mapStreamState d.state
    duration := jsOrUndefinedNat d.duration
    thumbnailUrl := jsOrUndefinedStr d.thumbnail
    size := jsOrUndefinedNat d.size }

/-! ## Status reconciler (src/src/index.ts 539-616) -/

/-- The persisted `cloudflareStream` group of a video record, as written by
`handleUpload` (src/src/index.ts 273-283) and the after-change hook. -/
structure CloudflareStreamGroup where
  streamId : String
  streamUrl : String
  status : VideoStatus
  uploadedAt : Nat
  size : Option Nat
  duration : Option Nat
  thumbnailUrl : Option String
  downloadUrl : Option String
deriving DecidableEq

/-- Outcome of one poll tick's remote status query: either the fetched details,
or a thrown error (network fault, non-2xx response, or `success:false`
envelope — all of `fetchVideoStatus`'s throw paths). -/
inductive TickResult
  | ok (details : StreamDetails)
  | fetchError
deriving DecidableEq

/-- Whether a tick succeeded with a status that maps to `processing`. -/
def TickResult.isProcessingOk : TickResult → Bool
  | .ok d => mapStreamState d.state == .processing
  | .fetchError => false

/-- Embedding of the merge-write performed by `checkStatus`
(src/src/index.ts 564-576): spread the stored group, then overwrite `status`,
`duration`, `thumbnailUrl` and `size` from the query result. -/
def mergeWrite (g : CloudflareStreamGroup) (r : StatusResult) : CloudflareStreamGroup :=
  { g with
    status := r.status
    duration := r.duration
    thumbnailUrl := r.thumbnailUrl
    size := r.size }

/-- Outcome of one execution of `checkStatus`: stop after writing, stop without
writing, or keep polling. -/
inductive StepOutcome
  | stopAfterWrite (w : CloudflareStreamGroup)
  | stopNoWrite
  | continuePolling
deriving DecidableEq

/-- Embedding of `checkStatus` inside `createAfterChangeHook`
(src/src/index.ts 551-584): a thrown query error returns `true` (stop polling,
no write); a result whose status is not `'processing'` performs the merge-write
and returns `true`; otherwise return `false` (continue). -/
def checkStatus (g : CloudflareStreamGroup) (t : TickResult) : StepOutcome :=
  match t with
  | .fetchError => .stopNoWrite
  | .ok d =>
    let r := fetchVideoStatusResult d
    if r.status ≠ .processing then .stopAfterWrite (mergeWrite g r)
    else .continuePolling

/-- Attempt budget of the reconciler's poll loop (src/src/index.ts 589). -/
def reconcilerMaxAttempts : Nat := 20

/-- Tick interval of the reconciler's poll loop, in milliseconds
(src/src/index.ts 590). -/
def reconcilerIntervalMs : Nat := 5000

/-- Embedding of the `setInterval` loop of `poll` inside
`createAfterChangeHook` (src/src/index.ts 587-608): each tick runs
`checkStatus` against the hook-time group `g`; the timer is cleared when a tick
asks to stop or when the attempt budget is exhausted. The supplied tick list
is the stream of remote query outcomes; the result is the list of performed
record writes together with the number of ticks that actually ran. -/
def reconcileRun (g : CloudflareStreamGroup) :
    List TickResult → Nat → List CloudflareStreamGroup × Nat
  | _, 0 => ([], 0)
  | [], _ + 1 => ([], 0)
  | t :: rest, budget + 1 =>
    match checkStatus g t with
    | .stopAfterWrite w => ([w], 1)
    | .stopNoWrite => ([], 1)
    | .continuePolling =>
      let r := reconcileRun g rest budget
      (r.1, r.2 + 1)

/-- The record group after a reconciler run: the last write when one was
performed, otherwise the unchanged group. -/
def recordAfterRun (g : CloudflareStreamGroup) (ticks : List TickResult)
    (budget : Nat) : CloudflareStreamGroup :=
  ((reconcileRun g ticks budget).1).getLastD g

/-! ## Deletion guard (src/unnamed/part_001 36-61, src/unnamed/part_002 152-178) -/

/-- Outcome of `handleStreamDelete` for a delete response. -/
inductive DeleteOutcome
  | success
  | upstreamError (status : Nat)
deriving DecidableEq

/-- The `Response.ok` flag of the fetch API: status in the range 200-299. -/
def fetchOk (status : Nat) : Bool :=
  200 ≤ status && status < 300

/-- Embedding of the response handling of `handleStreamDelete`
(src/unnamed/part_001 36-61): an ok (2xx) response succeeds; a 404 response is
treated as success; any other response throws. -/
def handleStreamDelete (status : Nat) : DeleteOutcome :=
  if fetchOk status then .success
  else if status = 404 then .success
  else .upstreamError status

/-! ## Generic poll utility (src/unnamed/part_004 7-47) -/

/-- Outcome of one invocation of the poll callback: a thrown exception, or a
`{ success, result }` pair. -/
inductive CbOutcome (T : Type)
  | throws
  | returns (success : Bool) (result : T)

/-- Whether a callback outcome reports success. -/
def CbOutcome.isSuccess {T : Type} : CbOutcome T → Bool
  | .returns true _ => true
  | _ => false

/-- Model of `options?.interval || 5000` (src/unnamed/part_004 15): absent or
falsy (`0`) values fall back to 5000. -/
def resolvePollInterval (o : Option Nat) : Nat :=
  match o with
  | none => 5000
  | some n => if n = 0 then 5000 else n

/-- Model of `options?.maxAttempts || 12` (src/unnamed/part_004 16). -/
def resolvePollMaxAttempts (o : Option Nat) : Nat :=
  match o with
  | none => 12
  | some n => if n = 0 then 12 else n

/-- Observable trace of one `poll` run: the returned value or the final
budget-exhaustion throw, the number of callback invocations, and the list of
waits (in ms) performed before the attempts. -/
structure PollTrace (T : Type) where
  outcome : Except Unit T
  attemptsUsed : Nat
  delays : List Nat

/-- Embedding of the `while` loop of `poll` (src/unnamed/part_004 19-44):
`attempts` is the number of invocations already made, the fuel is the remaining
budget; an iteration waits one `interval` unless it is the first attempt, then
invokes the callback (indexed by 1-based attempt number), returning on success
and continuing both on `success:false` and on a thrown exception. -/
def pollAux {T : Type} (cb : Nat → CbOutcome T) (interval : Nat) :
    Nat → Nat → PollTrace T
  | attempts, 0 => ⟨.error (), attempts, []⟩
  | attempts, fuel + 1 =>
    let waits : List Nat := if 0 < attempts then [interval] else []
    let a := attempts + 1
    match cb a with
    | .returns true t => ⟨.ok t, a, waits⟩
    | .returns false _ =>
      let r := pollAux cb interval a fuel
      ⟨r.outcome, r.attemptsUsed, waits ++ r.delays⟩
    | .throws =>
      let r := pollAux cb interval a fuel
      ⟨r.outcome, r.attemptsUsed, waits ++ r.delays⟩

/-- Embedding of `poll` (src/unnamed/part_004 7-47) with resolved interval and
budget: run the loop from zero used attempts with `maxAttempts` fuel. -/
def pollRun {T : Type} (cb : Nat → CbOutcome T) (interval maxAttempts : Nat) :
    PollTrace T :=
  pollAux cb interval 0 maxAttempts

/-! ## Concrete values used by counterexamples and witnesses -/

/-- A concrete stored record group used in counterexamples and witnesses. -/
def gExample : CloudflareStreamGroup :=
  { streamId := "0123456789abcdef0123456789abcdef"
    streamUrl := "https://customer.cloudflarestream.com/0123456789abcdef0123456789abcdef/watch"
    status := .processing
    uploadedAt := 1700000000
    size := some 1024
    duration := none
    thumbnailUrl := some "https://thumb.example/t.jpg"
    downloadUrl := some "https://dl.example/v.mp4" }

/-- A concrete remote result whose state maps to `processing`. -/
def inprogressTick : TickResult :=
  .ok { state := "inprogress", duration := none, thumbnail := none, size := none }

/-- A concrete remote result whose state maps to `ready`. -/
def readyDetails : StreamDetails :=
  { state := "ready", duration := some 42, thumbnail := some "https://thumb.example/t2.jpg", size := some 2048 }

/-! ## Theorems -/

/-- Claim C4: for every `totalBytes` and threshold `T`, the upload-mode decision
returns Resumable iff `totalBytes > T`, with the boundary `totalBytes == T`
giving Direct; the default threshold `MAX_FILE_SIZE` is 200 MiB, and the client
handler's `useTus` flag agrees with the decision at that default threshold. -/
theorem uploadModeSelector_decide_spec (totalBytes thresholdBytes : Nat) :
    (decideUploadMode totalBytes thresholdBytes = .resumable ↔ thresholdBytes < totalBytes)
    ∧ decideUploadMode thresholdBytes thresholdBytes = .direct
    ∧ MAX_FILE_SIZE = 200 * 1024 * 1024
    ∧ (useTus totalBytes = true ↔ decideUploadMode totalBytes MAX_FILE_SIZE = .resumable) := by
  refine ⟨?_, ?_, rfl, ?_⟩
  · unfold decideUploadMode
    by_cases h : thresholdBytes < totalBytes
    · simp [h]
    · simp [h]
  · simp [decideUploadMode]
  · unfold useTus decideUploadMode
    by_cases h : MAX_FILE_SIZE < totalBytes
    · simp [h]
    · simp [h]

/-- Claim C7: the deletion guard succeeds exactly on 2xx responses and on 404
(idempotent deletion), and every other status yields the upstream error carrying
that status. -/
theorem deletionGuard_outcome_spec (status : Nat) :
    (handleStreamDelete status = .success ↔ ((200 ≤ status ∧ status < 300) ∨ status = 404))
    ∧ (handleStreamDelete status = .success
        ∨ handleStreamDelete status = .upstreamError status) := by
  unfold handleStreamDelete fetchOk
  by_cases hok : 200 ≤ status ∧ status < 300
  · have hb : (200 ≤ status && status < 300) = true := by
      simp [hok.1, hok.2]
    rw [if_pos hb]
    exact ⟨⟨fun _ => Or.inl hok, fun _ => rfl⟩, Or.inl rfl⟩
  · have hb : ¬ ((200 ≤ status && status < 300) = true) := by
      simp only [Bool.and_eq_true, decide_eq_true_eq]
      exact hok
    rw [if_neg hb]
    by_cases h4 : status = 404
    · rw [if_pos h4]
      exact ⟨⟨fun _ => Or.inr h4, fun _ => rfl⟩, Or.inl rfl⟩
    · rw [if_neg h4]
      refine ⟨⟨fun h => (DeleteOutcome.noConfusion h), fun h => ?_⟩, Or.inr rfl⟩
      rcases h with h | h
      · exact absurd h hok
      · exact absurd h h4

/-- Claim C8: the remote-to-local status mapping is total — every remote state
string maps to exactly one of the three local statuses, `'ready'` to ready,
`'error'` to error, and everything else (including `'queued'` and
`'inprogress'`) to processing. -/
theorem statusMapping_total_spec (s : String) :
    (mapStreamState s = .ready ∨ mapStreamState s = .error ∨ mapStreamState s = .processing)
    ∧ (mapStreamState s = .ready ↔ s = "ready")
    ∧ (mapStreamState s = .error ↔ s = "error")
    ∧ (mapStreamState s = .processing ↔ (s ≠ "ready" ∧ s ≠ "error"))
    ∧ mapStreamState "queued" = .processing
    ∧ mapStreamState "inprogress" = .processing := by
  unfold mapStreamState
  by_cases hr : s = "ready"
  · subst hr
    refine ⟨Or.inl rfl, by simp, by simp, by simp, by decide, by decide⟩
  · by_cases he : s = "error"
    · subst he
      refine ⟨Or.inr (Or.inl (by simp)), by simp, by simp, by simp, by decide, by decide⟩
    · refine ⟨Or.inr (Or.inr (by simp [hr, he])), by simp [hr, he], by simp [hr, he],
        by simp [hr, he], by decide, by decide⟩

/-- A tick that succeeded with a `processing`-mapped status makes `checkStatus`
continue polling. -/
theorem checkStatus_continue_of_processing (g : CloudflareStreamGroup) (t : TickResult)
    (h : t.isProcessingOk = true) : checkStatus g t = .continuePolling := by
  cases t with
  | fetchError => simp [TickResult.isProcessingOk] at h
  | ok d =>
    simp only [TickResult.isProcessingOk, beq_iff_eq] at h
    simp [checkStatus, fetchVideoStatusResult, h]

/-- Unfolding equation of `reconcileRun` on a non-empty tick list with
remaining budget. -/
theorem reconcileRun_cons (g : CloudflareStreamGroup) (t : TickResult)
    (rest : List TickResult) (budget : Nat) :
    reconcileRun g (t :: rest) (budget + 1)
      = match checkStatus g t with
        | .stopAfterWrite w => ([w], 1)
        | .stopNoWrite => ([], 1)
        | .continuePolling =>
          let r := reconcileRun g rest budget
          (r.1, r.2 + 1) := rfl

/-- Claim C1: when every earlier tick's remote status mapped to `processing`
and the next tick maps to a terminal status, the reconciler performs exactly
one write — the merge of the stored group with the response's status, duration,
size and thumbnail, preserving all other stored fields — consumes exactly the
ticks up to that point, and processes nothing of any later tick. -/
theorem statusReconciler_single_write_spec
    (g : CloudflareStreamGroup) (pre post : List TickResult) (d : StreamDetails)
    (budget : Nat)
    (hpre : ∀ t ∈ pre, t.isProcessingOk = true)
    (hterm : mapStreamState d.state ≠ .processing)
    (hbudget : pre.length < budget) :
    reconcileRun g (pre ++ TickResult.ok d :: post) budget
      = ([mergeWrite g (fetchVideoStatusResult d)], pre.length + 1)
    ∧ (mergeWrite g (fetchVideoStatusResult d)).status = mapStreamState d.state
    ∧ (mergeWrite g (fetchVideoStatusResult d)).duration = jsOrUndefinedNat d.duration
    ∧ (mergeWrite g (fetchVideoStatusResult d)).size = jsOrUndefinedNat d.size
    ∧ (mergeWrite g (fetchVideoStatusResult d)).thumbnailUrl = jsOrUndefinedStr d.thumbnail
    ∧ (mergeWrite g (fetchVideoStatusResult d)).streamId = g.streamId
    ∧ (mergeWrite g (fetchVideoStatusResult d)).streamUrl = g.streamUrl
    ∧ (mergeWrite g (fetchVideoStatusResult d)).uploadedAt = g.uploadedAt
    ∧ (mergeWrite g (fetchVideoStatusResult d)).downloadUrl = g.downloadUrl := by
  refine ⟨?_, rfl, rfl, rfl, rfl, rfl, rfl, rfl, rfl⟩
  induction pre generalizing budget with
  | nil =>
    cases budget with
    | zero => omega
    | succ b =>
      rw [List.nil_append, reconcileRun_cons]
      have hc : checkStatus g (TickResult.ok d)
          = .stopAfterWrite (mergeWrite g (fetchVideoStatusResult d)) := by
        show (if (fetchVideoStatusResult d).status ≠ VideoStatus.processing
            then StepOutcome.stopAfterWrite (mergeWrite g (fetchVideoStatusResult d))
            else StepOutcome.continuePolling)
          = StepOutcome.stopAfterWrite (mergeWrite g (fetchVideoStatusResult d))
        rw [if_pos (show (fetchVideoStatusResult d).status ≠ VideoStatus.processing from hterm)]
      rw [hc]
      rfl
  | cons t ts ih =>
    cases budget with
    | zero => omega
    | succ b =>
      rw [List.cons_append, reconcileRun_cons,
        checkStatus_continue_of_processing g t (hpre t (List.mem_cons_self t ts))]
      have hih := ih b (fun t' ht' => hpre t' (List.mem_cons_of_mem _ ht'))
        (Nat.lt_of_succ_lt_succ hbudget)
      rw [hih]
      rfl

/-- Claim C2 counterexample: it is not the case that a failed status query
leaves the polling loop running — the formalized continuation property (a
failing tick consumes one attempt and the loop then proceeds through the
remaining ticks with the remaining budget) is refuted at a concrete run with a
failing first tick, a subsequent in-progress tick, and budget 20. -/
theorem statusReconciler_error_continue_counterexample :
    ¬ (∀ (g : CloudflareStreamGroup) (rest : List TickResult) (b : Nat),
        (reconcileRun g (TickResult.fetchError :: rest) (b + 2)).2
          = 1 + (reconcileRun g rest (b + 1)).2) := by
  intro h
  exact absurd (h gExample [inprogressTick] 18) (by decide)

/-- Claim C2 amended: a poll tick whose remote status query fails stops the
polling loop immediately — the failing tick consumes one attempt, performs no
write, and no further tick of that ingestion is processed. -/
theorem statusReconciler_error_stops_spec (g : CloudflareStreamGroup)
    (rest : List TickResult) (b : Nat) :
    reconcileRun g (TickResult.fetchError :: rest) (b + 1) = ([], 1) := rfl

/-- Claim C3: when every tick's remote status maps to `processing`, the
reconciler performs no write, consumes ticks only until the attempt budget is
exhausted, and leaves the record unchanged — in particular still `processing`. -/
theorem statusReconciler_budget_exhaust_spec
    (g : CloudflareStreamGroup) (ticks : List TickResult) (budget : Nat)
    (hall : ∀ t ∈ ticks, t.isProcessingOk = true) :
    (reconcileRun g ticks budget).1 = []
    ∧ (reconcileRun g ticks budget).2 = min budget ticks.length
    ∧ recordAfterRun g ticks budget = g
    ∧ (g.status = .processing → (recordAfterRun g ticks budget).status = .processing) := by
  have main : reconcileRun g ticks budget = ([], min budget ticks.length) := by
    induction ticks generalizing budget with
    | nil =>
      cases budget with
      | zero => rfl
      | succ b => simp [reconcileRun]
    | cons t ts ih =>
      cases budget with
      | zero => simp [reconcileRun]
      | succ b =>
        rw [reconcileRun_cons,
          checkStatus_continue_of_processing g t (hall t (List.mem_cons_self t ts))]
        have hih := ih b (fun t' ht' => hall t' (List.mem_cons_of_mem _ ht'))
        rw [hih]
        simp only [List.length_cons, Nat.succ_min_succ]
  refine ⟨by rw [main], by rw [main], ?_, ?_⟩
  · unfold recordAfterRun
    rw [main]
    rfl
  · intro hp
    unfold recordAfterRun
    rw [main]
    exact hp

/-- Claim C1 witness: a concrete run — one in-progress tick followed by a
`ready` tick under the code's budget of 20 — performs exactly the single merge
write and stops after the second tick. -/
theorem statusReconciler_single_write_witness :
    reconcileRun gExample ([inprogressTick] ++ TickResult.ok readyDetails :: [])
        reconcilerMaxAttempts
      = ([mergeWrite gExample (fetchVideoStatusResult readyDetails)],
          [inprogressTick].length + 1) :=
  (statusReconciler_single_write_spec gExample [inprogressTick] [] readyDetails
    reconcilerMaxAttempts (by decide) (by decide) (by decide)).1

/-- Claim C3 witness: three in-progress ticks under budget 2 — the loop stops
at the budget and the record keeps its `processing` status. -/
theorem statusReconciler_budget_exhaust_witness :
    (reconcileRun gExample [inprogressTick, inprogressTick, inprogressTick] 2).2 = min 2 3
    ∧ (recordAfterRun gExample [inprogressTick, inprogressTick, inprogressTick] 2).status
        = .processing := by
  have h := statusReconciler_budget_exhaust_spec gExample
    [inprogressTick, inprogressTick, inprogressTick] 2 (by decide)
  exact ⟨h.2.1, h.2.2.2 (by decide)⟩

/-- Unfolding equation of `pollAux` with remaining fuel. -/
theorem pollAux_succ {T : Type} (cb : Nat → CbOutcome T) (interval attempts fuel : Nat) :
    pollAux cb interval attempts (fuel + 1)
      = (let waits : List Nat := if 0 < attempts then [interval] else []
         match cb (attempts + 1) with
         | .returns true t => ⟨.ok t, attempts + 1, waits⟩
         | .returns false _ =>
           let r := pollAux cb interval (attempts + 1) fuel
           ⟨r.outcome, r.attemptsUsed, waits ++ r.delays⟩
         | .throws =>
           let r := pollAux cb interval (attempts + 1) fuel
           ⟨r.outcome, r.attemptsUsed, waits ++ r.delays⟩) := rfl

/-- The loop never uses more attempts than its remaining fuel allows. -/
theorem pollAux_attempts_le {T : Type} (cb : Nat → CbOutcome T) (interval : Nat) :
    ∀ (fuel attempts : Nat),
      (pollAux cb interval attempts fuel).attemptsUsed ≤ attempts + fuel := by
  intro fuel
  induction fuel with
  | zero => intro attempts; exact Nat.le_refl _
  | succ f ih =>
    intro attempts
    rw [pollAux_succ]
    cases h : cb (attempts + 1) with
    | returns success t =>
      cases success with
      | true => simp only [h]; omega
      | false =>
        simp only [h]
        show (pollAux cb interval (attempts + 1) f).attemptsUsed ≤ attempts + (f + 1)
        have := ih (attempts + 1)
        omega
    | throws =>
      simp only [h]
      show (pollAux cb interval (attempts + 1) f).attemptsUsed ≤ attempts + (f + 1)
      have := ih (attempts + 1)
      omega

/-- The loop's attempt counter never decreases. -/
theorem pollAux_attempts_ge {T : Type} (cb : Nat → CbOutcome T) (interval : Nat) :
    ∀ (fuel attempts : Nat),
      attempts ≤ (pollAux cb interval attempts fuel).attemptsUsed := by
  intro fuel
  induction fuel with
  | zero => intro attempts; exact Nat.le_refl _
  | succ f ih =>
    intro attempts
    rw [pollAux_succ]
    cases h : cb (attempts + 1) with
    | returns success t =>
      cases success with
      | true => simp only [h]; omega
      | false =>
        simp only [h]
        have := ih (attempts + 1)
        omega
    | throws =>
      simp only [h]
      have := ih (attempts + 1)
      omega

/-- Once at least one attempt was made, every further attempt is preceded by
exactly one interval wait. -/
theorem pollAux_delays_pos {T : Type} (cb : Nat → CbOutcome T) (interval : Nat) :
    ∀ (fuel attempts : Nat), 1 ≤ attempts →
      (pollAux cb interval attempts fuel).delays
        = List.replicate ((pollAux cb interval attempts fuel).attemptsUsed - attempts)
            interval := by
  intro fuel
  induction fuel with
  | zero =>
    intro attempts _
    simp [pollAux]
  | succ f ih =>
    intro attempts ha
    rw [pollAux_succ]
    have hw : (if 0 < attempts then [interval] else ([] : List Nat)) = [interval] :=
      if_pos ha
    cases h : cb (attempts + 1) with
    | returns success t =>
      cases success with
      | true =>
        simp only [h, hw]
        rw [Nat.add_sub_cancel_left]
        rfl
      | false =>
        simp only [h, hw]
        have hge := pollAux_attempts_ge cb interval f (attempts + 1)
        rw [ih (attempts + 1) (by omega)]
        have hn : (pollAux cb interval (attempts + 1) f).attemptsUsed - attempts
            = ((pollAux cb interval (attempts + 1) f).attemptsUsed - (attempts + 1)) + 1 := by
          omega
        rw [hn, List.replicate_succ]
        rfl
    | throws =>
      simp only [h, hw]
      have hge := pollAux_attempts_ge cb interval f (attempts + 1)
      rw [ih (attempts + 1) (by omega)]
      have hn : (pollAux cb interval (attempts + 1) f).attemptsUsed - attempts
          = ((pollAux cb interval (attempts + 1) f).attemptsUsed - (attempts + 1)) + 1 := by
        omega
      rw [hn, List.replicate_succ]
      rfl

/-- Delay shape of a full run started from zero used attempts: no wait before
the first attempt, one interval before each subsequent one. -/
theorem pollAux_delays_zero {T : Type} (cb : Nat → CbOutcome T) (interval fuel : Nat) :
    (pollAux cb interval 0 fuel).delays
      = List.replicate ((pollAux cb interval 0 fuel).attemptsUsed - 1) interval := by
  cases fuel with
  | zero => rfl
  | succ m =>
    rw [pollAux_succ]
    cases h : cb 1 with
    | returns success t =>
      cases success with
      | true => simp only [h]; rfl
      | false =>
        simp only [h]
        show (if 0 < 0 then [interval] else []) ++ (pollAux cb interval 1 m).delays
          = List.replicate ((pollAux cb interval 1 m).attemptsUsed - 1) interval
        rw [pollAux_delays_pos cb interval m 1 (Nat.le_refl 1)]
        simp
    | throws =>
      simp only [h]
      show (if 0 < 0 then [interval] else []) ++ (pollAux cb interval 1 m).delays
        = List.replicate ((pollAux cb interval 1 m).attemptsUsed - 1) interval
      rw [pollAux_delays_pos cb interval m 1 (Nat.le_refl 1)]
      simp

/-- The first success within the budget determines the result and the number of
invocations, regardless of how earlier invocations failed. -/
theorem pollAux_first_success {T : Type} (cb : Nat → CbOutcome T) (interval : Nat) (t : T) :
    ∀ (fuel attempts k : Nat), attempts < k → k ≤ attempts + fuel →
      (∀ j, j < k → (cb j).isSuccess = false) →
      cb k = .returns true t →
      (pollAux cb interval attempts fuel).outcome = .ok t
      ∧ (pollAux cb interval attempts fuel).attemptsUsed = k := by
  intro fuel
  induction fuel with
  | zero => intro attempts k h1 h2 _ _; omega
  | succ f ih =>
    intro attempts k h1 h2 hfail hsucc
    rw [pollAux_succ]
    by_cases hk : attempts + 1 = k
    · subst hk
      rw [hsucc]
      exact ⟨rfl, rfl⟩
    · have hlt : attempts + 1 < k := by omega
      have hne := hfail (attempts + 1) hlt
      cases h : cb (attempts + 1) with
      | returns success t' =>
        cases success with
        | true => rw [h] at hne; simp [CbOutcome.isSuccess] at hne
        | false =>
          simp only [h]
          exact ih (attempts + 1) k hlt (by omega) hfail hsucc
      | throws =>
        simp only [h]
        exact ih (attempts + 1) k hlt (by omega) hfail hsucc

/-- When no invocation within the budget succeeds, the loop exhausts its fuel
and ends in the budget-exhaustion throw. -/
theorem pollAux_no_success {T : Type} (cb : Nat → CbOutcome T) (interval : Nat) :
    ∀ (fuel attempts : Nat),
      (∀ j, j ≤ attempts + fuel → (cb j).isSuccess = false) →
      (pollAux cb interval attempts fuel).outcome = .error ()
      ∧ (pollAux cb interval attempts fuel).attemptsUsed = attempts + fuel := by
  intro fuel
  induction fuel with
  | zero => intro attempts _; exact ⟨rfl, rfl⟩
  | succ f ih =>
    intro attempts hfail
    rw [pollAux_succ]
    have hne := hfail (attempts + 1) (by omega)
    cases h : cb (attempts + 1) with
    | returns success t' =>
      cases success with
      | true => rw [h] at hne; simp [CbOutcome.isSuccess] at hne
      | false =>
        simp only [h]
        have := ih (attempts + 1) (fun j hj => hfail j (by omega))
        exact ⟨this.1, by omega⟩
    | throws =>
      simp only [h]
      have := ih (attempts + 1) (fun j hj => hfail j (by omega))
      exact ⟨this.1, by omega⟩

/-- Claim C10: the poll utility defaults to a 5000 ms interval and 12 attempts;
it invokes the callback at most `maxAttempts` times, waits no delay before the
first attempt and exactly one interval before each subsequent one, continues
through thrown or unsuccessful invocations, returns the result of the first
invocation reporting success, and throws (budget exhaustion) when no invocation
within the budget succeeds. -/
theorem pollUtility_spec {T : Type} (cb : Nat → CbOutcome T) (interval maxAttempts : Nat) :
    (resolvePollInterval none = 5000 ∧ resolvePollMaxAttempts none = 12)
    ∧ (pollRun cb interval maxAttempts).attemptsUsed ≤ maxAttempts
    ∧ (pollRun cb interval maxAttempts).delays
        = List.replicate ((pollRun cb interval maxAttempts).attemptsUsed - 1) interval
    ∧ (∀ (k : Nat) (t : T), 1 ≤ k → k ≤ maxAttempts →
        (∀ j, j < k → (cb j).isSuccess = false) → cb k = .returns true t →
        (pollRun cb interval maxAttempts).outcome = .ok t
        ∧ (pollRun cb interval maxAttempts).attemptsUsed = k)
    ∧ ((∀ j, j ≤ maxAttempts → (cb j).isSuccess = false) →
        (pollRun cb interval maxAttempts).outcome = .error ()
        ∧ (pollRun cb interval maxAttempts).attemptsUsed = maxAttempts) := by
  refine ⟨⟨rfl, rfl⟩, ?_, ?_, ?_, ?_⟩
  · have := pollAux_attempts_le cb interval maxAttempts 0
    simpa [pollRun] using this
  · exact pollAux_delays_zero cb interval maxAttempts
  · intro k t hk1 hkm hfail hsucc
    exact pollAux_first_success cb interval t maxAttempts 0 k (by omega) (by omega) hfail hsucc
  · intro hfail
    have := pollAux_no_success cb interval maxAttempts 0 (fun j hj => hfail j (by omega))
    exact ⟨this.1, by simpa using this.2⟩

/-- A concrete poll callback: the first attempt throws, the second reports
failure, the third succeeds with result 7. -/
def cbExample : Nat → CbOutcome Nat := fun j =>
  if j ≤ 1 then .throws
  else if j = 2 then .returns false 0
  else .returns true 7

/-- Claim C10 witness: with the default interval and budget, the concrete
callback's run returns the third attempt's result after exactly three
invocations. -/
theorem pollUtility_witness :
    (pollRun cbExample (resolvePollInterval none) (resolvePollMaxAttempts none)).outcome
        = .ok 7
    ∧ (pollRun cbExample (resolvePollInterval none) (resolvePollMaxAttempts none)).attemptsUsed
        = 3 := by
  have h := (pollUtility_spec cbExample (resolvePollInterval none)
      (resolvePollMaxAttempts none)).2.2.2.1 3 7 (by decide) (by decide)
      (by decide) (by rfl)
  exact ⟨h.1, h.2⟩

/-- Splitting after exactly the length of the left part of an append returns
both parts. -/
theorem splitAtExact_append (l r : List Char) :
    splitAtExact l.length (l ++ r) = some (l, r) := by
  induction l with
  | nil => rfl
  | cons c cs ih => simp [splitAtExact, ih]

/-- Stripping a literal prefix off itself followed by anything succeeds. -/
theorem stripPrefixChars_append (p l : List Char) :
    stripPrefixChars p (p ++ l) = some l := by
  induction p with
  | nil => rfl
  | cons c cs ih => simp [stripPrefixChars, ih]

/-- The pattern matcher accepts `/tus/` followed by 32 lowercase-hex characters
followed by the end of the string or a query string. -/
theorem matchTusAt_pattern (sid suffix : List Char)
    (hlen : sid.length = 32) (hhex : sid.all isLowerHex = true)
    (hsuffix : suffix = [] ∨ suffix.head? = some '?') :
    matchTusAt ("/tus/".data ++ (sid ++ suffix)) = some sid := by
  have hb : (suffix.isEmpty || suffix.head? == some '?') = true := by
    rcases hsuffix with h | h
    · simp [h]
    · simp [h]
  simp only [matchTusAt, stripPrefixChars_append]
  rw [← hlen, splitAtExact_append]
  simp [hhex, hb]

/-- When the pattern fails at every position inside the prefix, the leftmost
match of the whole string is the match of the rest. -/
theorem scanTus_prefix_match (pre rest sid : List Char)
    (hpre : ∀ j, j < pre.length → matchTusAt (List.drop j (pre ++ rest)) = none)
    (hm : matchTusAt rest = some sid) :
    scanTus (pre ++ rest) = some sid := by
  induction pre with
  | nil =>
    cases rest with
    | nil => simp [matchTusAt, stripPrefixChars] at hm
    | cons c cs =>
      rw [List.nil_append]
      show (match matchTusAt (c :: cs) with
        | some s => some s
        | none => scanTus cs) = some sid
      rw [hm]
  | cons p ps ih =>
    have h0 := hpre 0 (by simp)
    rw [List.drop_zero, List.cons_append] at h0
    rw [List.cons_append]
    show (match matchTusAt (p :: (ps ++ rest)) with
      | some s => some s
      | none => scanTus (ps ++ rest)) = some sid
    rw [h0]
    refine ih (fun j hj => ?_)
    have := hpre (j + 1) (by simpa using Nat.succ_lt_succ hj)
    rw [List.cons_append, List.drop_succ_cons] at this
    exact this

/-- Scanning success determines the extractor's output. -/
theorem extract_of_scan (l sid : List Char) (h : scanTus l = some sid) :
    extractStreamIdFromTusUrl ⟨l⟩ = ⟨sid⟩ := by
  unfold extractStreamIdFromTusUrl
  rw [show (⟨l⟩ : String).data = l from rfl, h]

/-- Claim C5: extraction of the resumable resource id is a pure function of the
`Location` string — a URL embedding a 32-lowercase-hex id in the `/tus/{id}`
path pattern (with no earlier match) extracts exactly that id; re-embedding the
extracted id canonically and extracting again returns it unchanged; and a URL
where the pattern matches nowhere makes the resumable issuance fail with the
stream-id parse error. -/
theorem tusResourceId_extraction_spec
    (pre sid suffix : List Char)
    (hlen : sid.length = 32)
    (hhex : sid.all isLowerHex = true)
    (hsuffix : suffix = [] ∨ suffix.head? = some '?')
    (hpre : ∀ j, j < pre.length →
      matchTusAt (List.drop j (pre ++ ("/tus/".data ++ (sid ++ suffix)))) = none) :
    extractStreamIdFromTusUrl ⟨pre ++ ("/tus/".data ++ (sid ++ suffix))⟩ = ⟨sid⟩
    ∧ extractStreamIdFromTusUrl
        ⟨"/tus/".data ++ (extractStreamIdFromTusUrl ⟨pre ++ ("/tus/".data ++ (sid ++ suffix))⟩).data⟩
        = extractStreamIdFromTusUrl ⟨pre ++ ("/tus/".data ++ (sid ++ suffix))⟩
    ∧ (∀ (url : String) (rawOrigins : Option (List String))
        (createResp : TusCreateResponse) (setResp : SetOriginsResponse),
        scanTus url.data = none → createResp.ok = true → createResp.location = some url →
        handleTusIssuance rawOrigins createResp setResp = .error .streamIdParseFailed) := by
  have hscan : scanTus (pre ++ ("/tus/".data ++ (sid ++ suffix))) = some sid :=
    scanTus_prefix_match pre _ sid hpre (matchTusAt_pattern sid suffix hlen hhex hsuffix)
  have h1 : extractStreamIdFromTusUrl ⟨pre ++ ("/tus/".data ++ (sid ++ suffix))⟩ = ⟨sid⟩ :=
    extract_of_scan _ _ hscan
  refine ⟨h1, ?_, ?_⟩
  · rw [h1]
    have hm2 : matchTusAt ("/tus/".data ++ (sid ++ [])) = some sid :=
      matchTusAt_pattern sid [] hlen hhex (Or.inl rfl)
    rw [List.append_nil] at hm2
    have hscan2 : scanTus ([] ++ ("/tus/".data ++ sid)) = some sid :=
      scanTus_prefix_match [] _ sid (fun j hj => absurd hj (by simp)) hm2
    rw [List.nil_append] at hscan2
    exact extract_of_scan _ _ hscan2
  · intro url rawOrigins createResp setResp hscanNone hok hloc
    have hempty : extractStreamIdFromTusUrl url = "" := by
      unfold extractStreamIdFromTusUrl
      rw [hscanNone]
    unfold handleTusIssuance
    rw [hok, hloc]
    simp [hempty]

/-- Claim C5 witness: a concrete location URL with a one-character prefix, the
uid `0123456789abcdef0123456789abcdef` and a `?tusv2=true` query extracts
exactly that uid. -/
theorem tusResourceId_extraction_witness :
    extractStreamIdFromTusUrl
      ⟨"x".data ++ ("/tus/".data ++ ("0123456789abcdef0123456789abcdef".data ++ "?tusv2=true".data))⟩
      = ⟨"0123456789abcdef0123456789abcdef".data⟩ :=
  (tusResourceId_extraction_spec "x".data "0123456789abcdef0123456789abcdef".data
    "?tusv2=true".data (by decide) (by decide) (Or.inr (by decide)) (by decide)).1

/-- Packing a valid codepoint into a `Char` preserves its numeric value. -/
theorem toNat_ofNat_of_valid {n : Nat} (h : n.isValidChar) : (Char.ofNat n).toNat = n := by
  rw [Char.ofNat, dif_pos h]
  rfl

/-- Lower-casing a character is idempotent. -/
theorem lowerChar_idem (c : Char) : lowerChar (lowerChar c) = lowerChar c := by
  unfold lowerChar
  by_cases h : 65 ≤ c.toNat ∧ c.toNat ≤ 90
  · rw [if_pos h]
    have hv : (c.toNat + 32).isValidChar := Or.inl (by omega)
    rw [toNat_ofNat_of_valid hv, if_neg (by omega)]
  · rw [if_neg h, if_neg h]

/-- Lower-casing maps only `'/'` itself to `'/'`. -/
theorem lowerChar_eq_slash (c : Char) (h : lowerChar c = '/') : c = '/' := by
  unfold lowerChar at h
  by_cases hc : 65 ≤ c.toNat ∧ c.toNat ≤ 90
  · rw [if_pos hc] at h
    have hv : (c.toNat + 32).isValidChar := Or.inl (by omega)
    have h47 := congrArg Char.toNat h
    rw [toNat_ofNat_of_valid hv] at h47
    have : c.toNat + 32 = 47 := h47
    omega
  · rw [if_neg hc] at h
    exact h

/-- Mapping the lower-casing over a list twice collapses to once. -/
theorem map_lowerChar_idem (l : List Char) :
    (l.map lowerChar).map lowerChar = l.map lowerChar := by
  induction l with
  | nil => rfl
  | cons c cs ih => simp [lowerChar_idem, ih]

/-- Trimming only removes elements. -/
theorem mem_of_mem_trimChars {a : Char} {l : List Char} (h : a ∈ trimChars l) : a ∈ l := by
  unfold trimChars at h
  rw [List.mem_reverse] at h
  have h2 := (List.dropWhile_sublist isJsWhitespace).subset h
  rw [List.mem_reverse] at h2
  exact (List.dropWhile_sublist isJsWhitespace).subset h2

/-- Dropping the userinfo only removes elements. -/
theorem mem_of_mem_afterLastAt {a : Char} {l : List Char} (h : a ∈ afterLastAt l) : a ∈ l := by
  unfold afterLastAt at h
  rw [List.mem_reverse] at h
  have h2 := (List.takeWhile_sublist _).subset h
  rw [List.mem_reverse] at h2
  exact h2

/-- A parsed URL host contains no slash. -/
theorem urlHostChars_no_slash {raw hst : List Char} (h : urlHostChars raw = some hst) :
    ∀ c ∈ hst, ¬ (c = '/') := by
  unfold urlHostChars at h
  cases hs : httpSchemeRest raw with
  | none => rw [hs] at h; exact Option.noConfusion h
  | some rest =>
    rw [hs] at h
    simp only at h
    split at h
    · exact Option.noConfusion h
    · have heq := Option.some.inj h
      intro c hc hceq
      subst hceq
      rw [← heq] at hc
      have h1 := mem_of_mem_afterLastAt hc
      unfold urlAuthority at h1
      have h2 := List.mem_takeWhile_imp h1
      simp at h2

/-- Every successfully sanitized origin is lower-cased, has scheme and path
stripped (no `'/'` occurs in it), and is non-empty. -/
theorem sanitize_props (v x : String) (h : sanitizeAllowedOrigin v = some x) :
    lowerStr x = x ∧ ('/' ∉ x.data) ∧ x ≠ "" := by
  have buildProps : ∀ (t : List Char), (∀ c ∈ t, ¬ (c = '/')) → t ≠ [] →
      lowerStr ⟨t.map lowerChar⟩ = ⟨t.map lowerChar⟩
      ∧ ('/' ∉ (⟨t.map lowerChar⟩ : String).data)
      ∧ (⟨t.map lowerChar⟩ : String) ≠ "" := by
    intro t ht hne
    refine ⟨?_, ?_, ?_⟩
    · show (⟨(t.map lowerChar).map lowerChar⟩ : String) = ⟨t.map lowerChar⟩
      rw [map_lowerChar_idem]
    · intro hmem
      rw [show ((⟨t.map lowerChar⟩ : String)).data = t.map lowerChar from rfl] at hmem
      rcases List.mem_map.mp hmem with ⟨c, hc, hlc⟩
      exact ht c hc (lowerChar_eq_slash c hlc)
    · intro hcontra
      have hd : t.map lowerChar = [] := congrArg String.data hcontra
      rw [List.map_eq_nil_iff] at hd
      exact hne hd
  simp only [sanitizeAllowedOrigin] at h
  split at h
  · exact Option.noConfusion h
  · split at h
    · -- scheme branch
      split at h
      · exact Option.noConfusion h
      · next hst hhost =>
        split at h
        · exact Option.noConfusion h
        · next htne =>
          rw [← Option.some.inj h]
          refine buildProps (trimChars hst) ?_ ?_
          · intro c hc
            exact urlHostChars_no_slash hhost c (mem_of_mem_trimChars hc)
          · intro hnil
            rw [hnil] at htne
            exact htne rfl
    · -- plain branch
      split at h
      · exact Option.noConfusion h
      · next hwne =>
        rw [← Option.some.inj h]
        refine buildProps _ ?_ ?_
        · intro c hc hceq
          subst hceq
          have h1 := mem_of_mem_trimChars hc
          have h2 := List.mem_takeWhile_imp h1
          simp at h2
        · intro hnil
          rw [hnil] at hwne
          exact hwne rfl

/-- Containment in a list extended on the right by one element. -/
theorem contains_append_singleton (acc : List String) (n x : String) :
    (acc ++ [n]).contains x = (acc.contains x || x == n) := by
  induction acc with
  | nil =>
    simp only [List.nil_append, List.contains_cons, List.contains_nil, Bool.or_false,
      Bool.false_or]
  | cons a as ih =>
    rw [List.cons_append, List.contains_cons, ih, List.contains_cons, Bool.or_assoc]

/-- Unfolding equation of `dedupKeepFirst` on the empty list. -/
theorem dedupKeepFirst_nil : dedupKeepFirst [] = [] := by
  rw [dedupKeepFirst]

/-- Unfolding equation of `dedupKeepFirst` on a non-empty list. -/
theorem dedupKeepFirst_cons (x : String) (xs : List String) :
    dedupKeepFirst (x :: xs) = x :: dedupKeepFirst (xs.filter (fun y => !(y == x))) := by
  rw [dedupKeepFirst]

/-- Fuel-indexed membership: deduplication only removes elements. -/
theorem mem_of_mem_dedupKeepFirst_aux :
    ∀ (n : Nat) (l : List String), l.length ≤ n → ∀ x ∈ dedupKeepFirst l, x ∈ l := by
  intro n
  induction n with
  | zero =>
    intro l hl x hx
    cases l with
    | nil => rw [dedupKeepFirst_nil] at hx; exact absurd hx (by simp)
    | cons a as => simp at hl
  | succ n ih =>
    intro l hl x hx
    cases l with
    | nil => rw [dedupKeepFirst_nil] at hx; exact absurd hx (by simp)
    | cons a as =>
      rw [dedupKeepFirst_cons] at hx
      rcases List.mem_cons.mp hx with h | h
      · exact h ▸ List.mem_cons_self _ _
      · have hlen : (as.filter (fun y => !(y == a))).length ≤ n := by
          have := List.length_filter_le (fun y => !(y == a)) as
          simp only [List.length_cons] at hl
          omega
        exact List.mem_cons_of_mem _ (List.mem_of_mem_filter (ih _ hlen x h))

/-- Deduplication only removes elements. -/
theorem mem_of_mem_dedupKeepFirst (l : List String) (x : String)
    (hx : x ∈ dedupKeepFirst l) : x ∈ l :=
  mem_of_mem_dedupKeepFirst_aux l.length l (Nat.le_refl _) x hx

/-- Fuel-indexed: the deduplicated list has no duplicates. -/
theorem dedupKeepFirst_nodup_aux :
    ∀ (n : Nat) (l : List String), l.length ≤ n → (dedupKeepFirst l).Nodup := by
  intro n
  induction n with
  | zero =>
    intro l hl
    cases l with
    | nil => rw [dedupKeepFirst_nil]; exact List.nodup_nil
    | cons a as => simp at hl
  | succ n ih =>
    intro l hl
    cases l with
    | nil => rw [dedupKeepFirst_nil]; exact List.nodup_nil
    | cons a as =>
      rw [dedupKeepFirst_cons]
      have hlen : (as.filter (fun y => !(y == a))).length ≤ n := by
        have := List.length_filter_le (fun y => !(y == a)) as
        simp only [List.length_cons] at hl
        omega
      refine List.nodup_cons.mpr ⟨?_, ih _ hlen⟩
      intro hmem
      have hin := mem_of_mem_dedupKeepFirst _ _ hmem
      have hp := List.of_mem_filter hin
      simp at hp

/-- The deduplicated list has no duplicates. -/
theorem dedupKeepFirst_nodup (l : List String) : (dedupKeepFirst l).Nodup :=
  dedupKeepFirst_nodup_aux l.length l (Nat.le_refl _)

/-- The accumulating loop of `normalizeAllowedOrigins` computes the
first-occurrence deduplication of the sanitized inputs not already in the
accumulator, appended to the accumulator. -/
theorem foldl_normStep_eq :
    ∀ (l acc : List String),
      l.foldl normStep acc
        = acc ++ dedupKeepFirst
            ((l.filterMap sanitizeAllowedOrigin).filter (fun y => !acc.contains y)) := by
  intro l
  induction l with
  | nil => intro acc; simp [dedupKeepFirst_nil]
  | cons o os ih =>
    intro acc
    rw [List.foldl_cons]
    cases hs : sanitizeAllowedOrigin o with
    | none =>
      have hstep : normStep acc o = acc := by
        unfold normStep
        rw [hs]
      rw [hstep, ih acc, List.filterMap_cons_none hs]
    | some n =>
      rw [List.filterMap_cons_some hs]
      cases hc : acc.contains n with
      | true =>
        have hstep : normStep acc o = acc := by
          unfold normStep
          rw [hs]
          show (if acc.contains n = true then acc else acc ++ [n]) = acc
          rw [if_pos hc]
        have hfilt : List.filter (fun y => !acc.contains y)
            (n :: os.filterMap sanitizeAllowedOrigin)
            = List.filter (fun y => !acc.contains y) (os.filterMap sanitizeAllowedOrigin) := by
          rw [List.filter_cons, hc]
          rfl
        rw [hstep, ih acc, hfilt]
      | false =>
        have hstep : normStep acc o = acc ++ [n] := by
          unfold normStep
          rw [hs]
          show (if acc.contains n = true then acc else acc ++ [n]) = acc ++ [n]
          rw [if_neg (fun hcontra => Bool.false_ne_true (hc ▸ hcontra))]
        have hfilt : List.filter (fun y => !acc.contains y)
            (n :: os.filterMap sanitizeAllowedOrigin)
            = n :: List.filter (fun y => !acc.contains y) (os.filterMap sanitizeAllowedOrigin) := by
          rw [List.filter_cons, hc]
          rfl
        rw [hstep, ih (acc ++ [n]), hfilt, dedupKeepFirst_cons, List.filter_filter]
        have hpred : (fun y => !(acc ++ [n]).contains y)
            = (fun a => !(a == n) && !acc.contains a) := by
          funext a
          rw [contains_append_singleton]
          cases h1 : acc.contains a <;> cases h2 : a == n <;> rfl
        rw [hpred, List.append_assoc]
        rfl

/-- `normalizeAllowedOrigins` on an array input is the guarded first-occurrence
deduplication of the sanitized entries. -/
theorem normalizeAllowedOrigins_eq (l : List String) :
    normalizeAllowedOrigins (some l)
      = (if (dedupKeepFirst (l.filterMap sanitizeAllowedOrigin)).length > 0
         then some (dedupKeepFirst (l.filterMap sanitizeAllowedOrigin)) else none) := by
  show (if (l.foldl normStep []).length > 0 then some (l.foldl normStep []) else none) = _
  rw [foldl_normStep_eq l []]
  simp

/-- A successful normalization result is non-empty. -/
theorem normalizeAllowedOrigins_pos (v : Option (List String)) (out : List String)
    (h : normalizeAllowedOrigins v = some out) : 0 < out.length := by
  cases v with
  | none => exact Option.noConfusion h
  | some origins =>
    simp only [normalizeAllowedOrigins] at h
    split at h
    · next hc =>
      rw [← Option.some.inj h]
      exact hc
    · exact Option.noConfusion h

/-- Claim C6: the origin list submitted by the resumable-mode follow-up call is
the first-occurrence deduplication of the sanitized configured origins — each
entry lower-cased, scheme- and path-free, and non-empty — and when the
follow-up call responds non-ok or with a failed envelope, the whole issuance
fails with the set-origins error. -/
theorem allowedOrigins_normalized_spec
    (l : List String) (createResp : TusCreateResponse) (setResp : SetOriginsResponse)
    (out : List String)
    (hnorm : normalizeAllowedOrigins (some l) = some out)
    (hok : createResp.ok = true)
    (hurl : ∃ url, createResp.location = some url ∧ extractStreamIdFromTusUrl url ≠ "")
    (hfail : setAllowedOriginsFails setResp = true) :
    out = dedupKeepFirst (l.filterMap sanitizeAllowedOrigin)
    ∧ out.Nodup
    ∧ (∀ x ∈ out, lowerStr x = x ∧ ('/' ∉ x.data) ∧ x ≠ "")
    ∧ handleTusIssuance (some l) createResp setResp = .error .setOriginsFailed := by
  have hout : out = dedupKeepFirst (l.filterMap sanitizeAllowedOrigin) := by
    rw [normalizeAllowedOrigins_eq] at hnorm
    split at hnorm
    · exact (Option.some.inj hnorm).symm
    · exact Option.noConfusion hnorm
  have hpos := normalizeAllowedOrigins_pos (some l) out hnorm
  refine ⟨hout, hout ▸ dedupKeepFirst_nodup _, ?_, ?_⟩
  · intro x hx
    have hmem := mem_of_mem_dedupKeepFirst _ _ (hout ▸ hx)
    rcases List.mem_filterMap.mp hmem with ⟨o, _, ho⟩
    exact sanitize_props o x ho
  · rcases hurl with ⟨url, hloc, hext⟩
    simp only [handleTusIssuance, hok, hloc, hnorm, Bool.not_true]
    rw [if_neg Bool.false_ne_true, if_neg hext, if_pos hpos, if_pos hfail]

/-- Claim C6 witness: a concrete configuration mixing a schemed URL with mixed
case, a path-carrying bare host, a duplicate and an empty entry submits
normalized origins, and a failing follow-up response fails the issuance. -/
theorem allowedOrigins_normalized_witness :
    handleTusIssuance (some ["https://A.com/path", "  b.org/x ", "a.com", ""])
        ⟨true, some "/tus/0123456789abcdef0123456789abcdef"⟩ ⟨false, none⟩
      = .error .setOriginsFailed :=
  (allowedOrigins_normalized_spec ["https://A.com/path", "  b.org/x ", "a.com", ""]
    ⟨true, some "/tus/0123456789abcdef0123456789abcdef"⟩ ⟨false, none⟩
    ["a.com", "b.org"] (by decide) rfl
    ⟨"/tus/0123456789abcdef0123456789abcdef", rfl, by decide⟩ (by decide)).2.2.2

/-- Claim C9: normalization returns either nothing or a non-empty duplicate-free
list of lower-cased entries — never an empty list, and a non-array input yields
nothing — and when it returns nothing the resumable issuance never consults the
follow-up response and submits no origins. -/
theorem allowedOrigins_followup_guard_spec (value : Option (List String)) :
    (normalizeAllowedOrigins value = none
      ∨ ∃ out, normalizeAllowedOrigins value = some out ∧ out ≠ [] ∧ out.Nodup
          ∧ ∀ x ∈ out, lowerStr x = x)
    ∧ normalizeAllowedOrigins value ≠ some []
    ∧ normalizeAllowedOrigins none = none
    ∧ (normalizeAllowedOrigins value = none →
        ∀ (createResp : TusCreateResponse) (setResp setResp' : SetOriginsResponse),
          handleTusIssuance value createResp setResp
            = handleTusIssuance value createResp setResp'
          ∧ (∀ r, handleTusIssuance value createResp setResp = .ok r →
              r.originsSubmitted = none)) := by
  have houtEq : ∀ (l : List String) (out : List String),
      normalizeAllowedOrigins (some l) = some out →
      out = dedupKeepFirst (l.filterMap sanitizeAllowedOrigin) := by
    intro l out hv
    rw [normalizeAllowedOrigins_eq] at hv
    split at hv
    · exact (Option.some.inj hv).symm
    · exact Option.noConfusion hv
  refine ⟨?_, ?_, rfl, ?_⟩
  · cases hv : normalizeAllowedOrigins value with
    | none => exact Or.inl rfl
    | some out =>
      refine Or.inr ⟨out, rfl, ?_, ?_, ?_⟩
      · have hpos := normalizeAllowedOrigins_pos value out hv
        intro hemp
        rw [hemp] at hpos
        simp at hpos
      · cases value with
        | none => exact Option.noConfusion hv
        | some l => exact (houtEq l out hv) ▸ dedupKeepFirst_nodup _
      · intro x hx
        cases value with
        | none => exact Option.noConfusion hv
        | some l =>
          have hmem := mem_of_mem_dedupKeepFirst _ _ ((houtEq l out hv) ▸ hx)
          rcases List.mem_filterMap.mp hmem with ⟨o, _, ho⟩
          exact (sanitize_props o x ho).1
  · intro hcontra
    have := normalizeAllowedOrigins_pos value [] hcontra
    simp at this
  · intro hn createResp setResp setResp'
    constructor
    · cases hok : createResp.ok with
      | false => simp [handleTusIssuance, hok]
      | true =>
        cases hloc : createResp.location with
        | none => simp [handleTusIssuance, hok, hloc]
        | some url =>
          by_cases hext : extractStreamIdFromTusUrl url = ""
          · simp [handleTusIssuance, hok, hloc, hext]
          · simp [handleTusIssuance, hok, hloc, hext, hn]
    · intro r hr
      cases hok : createResp.ok with
      | false => simp [handleTusIssuance, hok] at hr
      | true =>
        cases hloc : createResp.location with
        | none => simp [handleTusIssuance, hok, hloc] at hr
        | some url =>
          by_cases hext : extractStreamIdFromTusUrl url = ""
          · simp [handleTusIssuance, hok, hloc, hext] at hr
          · simp only [handleTusIssuance, hok, hloc, hn, Bool.not_true] at hr
            rw [if_neg Bool.false_ne_true, if_neg hext] at hr
            rw [← Except.ok.inj hr]

/-- Claim C9 witness: an origin list whose sole entry sanitizes to nothing
normalizes to nothing, and the issuance outcome is then independent of the
follow-up response. -/
theorem allowedOrigins_followup_guard_witness :
    handleTusIssuance (some ["///"])
        ⟨true, some "/tus/0123456789abcdef0123456789abcdef"⟩ ⟨false, none⟩
      = handleTusIssuance (some ["///"])
        ⟨true, some "/tus/0123456789abcdef0123456789abcdef"⟩ ⟨true, some true⟩ :=
  ((allowedOrigins_followup_guard_spec (some ["///"])).2.2.2 (by decide)
    ⟨true, some "/tus/0123456789abcdef0123456789abcdef"⟩ ⟨false, none⟩
    ⟨true, some true⟩).1
